import Mathlib

/-!
Verification development for the reference-manager repository.

This file embeds the data model and the algorithms of the repository
(`reference_manager/models.py`, `bibtex_parser.py`, `citation.py`,
`project_manager.py`, `file_manager.py`) as executable Lean definitions and
proves/refutes the frozen specification claims about them.

Python strings are modelled as `String`/`List Char`; Python dicts that are
used in insertion order (a reference's `fields`, a project's `references`)
are modelled as association lists.
-/

namespace RefMan

/-- Embedding of `reference_manager.models.Reference` (a Python dataclass):
`fields` is the insertion-ordered field dict. -/
structure Reference where
  key : String
  entry_type : String
  fields : List (String × String)
  original_key : Option String := none
  file_path : Option String := none
deriving DecidableEq

/-- Default reference used with `List.getD`. -/
def dref : Reference := ⟨"", "", [], none, none⟩

/-- Python `dict.get(k, dflt)` on an association list. -/
def fieldsGet (fields : List (String × String)) (k dflt : String) : String :=
  match fields.find? (fun p => p.1 == k) with
  | some p => p.2
  | none => dflt

/-- Worker for Python `s.split(sep)` (non-empty `sep`) on character lists.
`fuel` bounds the recursion; each step consumes at least one character, so
`fuel = xs.length` is always enough. -/
def splitOnGo (sep : List Char) : Nat → List Char → List Char → List (List Char)
  | _, [], acc => [acc.reverse]
  | 0, xs, acc => [acc.reverse ++ xs]
  | fuel + 1, x :: xs, acc =>
    if sep.isPrefixOf (x :: xs) then
      acc.reverse :: splitOnGo sep fuel (List.drop (sep.length - 1) xs) []
    else
      splitOnGo sep fuel xs (x :: acc)

/-- Python `s.split(sep)` for a non-empty separator: greedy left-to-right
non-overlapping splitting; always returns at least one part. -/
def pysplit (sep xs : List Char) : List (List Char) :=
  splitOnGo sep xs.length xs []

/-- Python `sep in s` (substring containment). -/
def containsSub (sep : List Char) : List Char → Bool
  | [] => sep.isPrefixOf []
  | x :: xs => sep.isPrefixOf (x :: xs) || containsSub sep xs

/-- Python `s.strip()`: remove leading and trailing whitespace. -/
def pystrip (xs : List Char) : List Char :=
  ((xs.dropWhile Char.isWhitespace).reverse.dropWhile Char.isWhitespace).reverse

/-- Worker for Python no-argument `s.split()`: split on whitespace runs,
discarding empty parts. `fuel = xs.length` is always enough. -/
def splitWsGo : Nat → List Char → List (List Char)
  | _, [] => []
  | 0, xs => [xs]
  | fuel + 1, x :: xs =>
    if x.isWhitespace then splitWsGo fuel xs
    else (x :: xs.takeWhile (fun c => !c.isWhitespace))
      :: splitWsGo fuel (xs.dropWhile (fun c => !c.isWhitespace))

/-- Python no-argument `s.split()`. -/
def pysplitWs (xs : List Char) : List (List Char) :=
  splitWsGo xs.length xs

/-- Python `s.lower()` (ASCII is all the repository uses). -/
def toLowerS (s : String) : String :=
  String.mk (s.data.map Char.toLower)

/-- Shared sub-expression `a.split(",")[0].strip()` of
`citation.py:get_formatted_author_year` and
`models.py:get_standardized_filename`: the segment of one author string
before the first comma, trimmed. -/
def lastSegOf (part : List Char) : List Char :=
  pystrip ((pysplit [','] part).getD 0 [])

/-- Number of references in `refs` whose key is `k`
(the length of one bucket of `BibTexManager.find_duplicate_keys`). -/
def countKey (k : String) (refs : List Reference) : Nat :=
  (refs.filter (fun r => r.key == k)).length

/-- Renaming applied by `BibTexManager.resolve_duplicate_keys` to the `i`-th
occurrence (`i ≥ 1`) of a duplicated key: `ref.original_key = ref.key;
ref.key = f"{key}_{i}"`. -/
def renameIdx (i : Nat) (r : Reference) : Reference :=
  { r with original_key := some r.key, key := r.key ++ "_" ++ toString i }

/-- Worker for `BibTexManager.resolve_duplicate_keys`. The Python code groups
the list by (pre-resolution) key and renames the `i`-th member of each
duplicate group for `i ≥ 1`; the `i`-th member of the group of key `k` is
exactly the reference preceded by `i` earlier occurrences of `k` in the
original list. `seen` is the already-scanned prefix of the original list,
so `countKey r.key seen` is that group index. -/
def resolveGo (seen : List Reference) : List Reference → List Reference
  | [] => []
  | r :: rest =>
    (if countKey r.key seen = 0 then r else renameIdx (countKey r.key seen) r)
      :: resolveGo (seen ++ [r]) rest

/-- Embedding of `BibTexManager.resolve_duplicate_keys`. -/
def resolve_duplicate_keys (refs : List Reference) : List Reference :=
  resolveGo [] refs

/-- Embedding of `CitationFormatter.format_citation`. -/
def format_citation (r : Reference) (style : String) : String :=
  if style = "cite" then "\\cite\x7b" ++ r.key ++ "\x7d"
  else if style = "citep" then "\\citep\x7b" ++ r.key ++ "\x7d"
  else if style = "citet" then "\\citet\x7b" ++ r.key ++ "\x7d"
  else if style = "footcite" then "\\footcite\x7b" ++ r.key ++ "\x7d"
  else if style = "textcite" then "\\textcite\x7b" ++ r.key ++ "\x7d"
  else "\\cite\x7b" ++ r.key ++ "\x7d"

/-- Embedding of `CitationFormatter.format_multiple_citations`:
`keys_str = ",".join(keys)`. -/
def format_multiple_citations (refs : List Reference) (style : String) : String :=
  let keysStr := String.intercalate "," (refs.map Reference.key)
  if style = "cite" then "\\cite\x7b" ++ keysStr ++ "\x7d"
  else if style = "citep" then "\\citep\x7b" ++ keysStr ++ "\x7d"
  else if style = "citet" then "\\citet\x7b" ++ keysStr ++ "\x7d"
  else if style = "footcite" then "\\footcite\x7b" ++ keysStr ++ "\x7d"
  else if style = "textcite" then "\\textcite\x7b" ++ keysStr ++ "\x7d"
  else "\\cite\x7b" ++ keysStr ++ "\x7d"

/-- Embedding of `CitationFormatter.format_bibtex_entry`: the Python code
lowercases `entry_type`, renders the header, folds the field lines
`"  {field} = {{value}},\n"` onto the accumulator, and closes with `}`. -/
def format_bibtex_entry (r : Reference) : String :=
  let t := toLowerS r.entry_type
  let header := "@" ++ t ++ "\x7b" ++ r.key ++ ",\n"
  let body := r.fields.foldl
    (fun acc fv => acc ++ "  " ++ fv.1 ++ " = \x7b" ++ fv.2 ++ "\x7d,\n") header
  body ++ "\x7d"

/-- Embedding of `CitationFormatter.get_formatted_author_year`. The Python
code computes `last_name = author.split("and")[0].split(",")[0].strip()`,
branches on `"and" in author` and on `len(author.split("and")) == 2`. -/
def get_formatted_author_year (r : Reference) : String :=
  let author := (fieldsGet r.fields "author" "Unknown").data
  let year := fieldsGet r.fields "year" "n.d."
  let last_name := lastSegOf ((pysplit "and".data author).getD 0 [])
  if containsSub "and".data author then
    if (pysplit "and".data author).length = 2 then
      let parts := pysplit "and".data author
      String.mk (lastSegOf (parts.getD 0 [])) ++ " and "
        ++ String.mk (lastSegOf (parts.getD 1 [])) ++ " (" ++ year ++ ")"
    else
      String.mk last_name ++ " et al. (" ++ year ++ ")"
  else
    String.mk last_name ++ " (" ++ year ++ ")"

/-- Embedding of `Reference.get_standardized_filename` (`models.py`):
`last_name = author.split("and")[0].split(",")[0].strip()`, the title keeps
only alphanumeric/whitespace characters, and the first three whitespace-split
words are joined with `_`. -/
def Reference.get_standardized_filename (r : Reference) : String :=
  let author := (fieldsGet r.fields "author" "Unknown").data
  let year := fieldsGet r.fields "year" "XXXX"
  let title := (fieldsGet r.fields "title" "Untitled").data
  let last_name := lastSegOf ((pysplit "and".data author).getD 0 [])
  let clean_title := title.filter (fun c => c.isAlphanum || c.isWhitespace)
  let title_words := (pysplitWs clean_title).take 3
  let short_title := String.intercalate "_" (title_words.map String.mk)
  String.mk last_name ++ "_" ++ year ++ "_" ++ short_title ++ ".pdf"

/-- Embedding of `Project.add_reference`: Python
`self.references[reference.key] = reference` on an insertion-ordered dict
(replace in place if the key exists, else append). -/
def add_reference (refs : List (String × Reference)) (r : Reference) :
    List (String × Reference) :=
  if refs.any (fun p => p.1 == r.key) then
    refs.map (fun p => if p.1 == r.key then (p.1, r) else p)
  else refs ++ [(r.key, r)]

/-- Embedding of `ProjectManager.import_bibtex`, given the already-parsed
references of the file: concatenate the project's current references with
the parsed ones, resolve duplicates, keep the resolved entries whose key was
not already present, insert them, return them. -/
def import_bibtex (projRefs : List (String × Reference)) (parsed : List Reference) :
    List (String × Reference) × List Reference :=
  let allRefs := projRefs.map Prod.snd ++ parsed
  let resolved := resolve_duplicate_keys allRefs
  let existingKeys := projRefs.map Prod.fst
  let newRefs := resolved.filter (fun r => !(existingKeys.contains r.key))
  (newRefs.foldl add_reference projRefs, newRefs)

/-- Embedding of the records-to-Reference mapping inside
`BibTexManager.parse_bibtex_file`: each parsed entry `(key, type, fields)`
becomes `Reference(key=key, entry_type=entry_type, fields=entry,
original_key=key, file_path=file_path)` where `file_path` is the path of
the parsed BibTeX file. -/
def entriesToReferences (file_path : String)
    (entries : List (String × String × List (String × String))) : List Reference :=
  entries.map (fun e =>
    { key := e.1, entry_type := e.2.1, fields := e.2.2,
      original_key := some e.1, file_path := some file_path })

/-- Embedding of `FileManager.add_reference_file`: the destination is
`project_dir / std_filename` and the reference's `file_path` is updated to
it (the directory separator is rendered as `/`). -/
def add_reference_file (baseDir projectName : String) (r : Reference) : Reference :=
  let dest := baseDir ++ "/" ++ projectName ++ "/" ++ r.get_standardized_filename
  { r with file_path := some dest }

/-! Specification-side definitions, written from the spec's words, to be
compared with the code-side definitions above. -/

/-- Author-year short form as worded by the spec, parameterized by the
author separator: split the `author` field on `sep`, take each author's
segment before the first comma trimmed, and render one/two/many authors as
`L (y)` / `L1 and L2 (y)` / `L1 et al. (y)`. The claim states `sep = " and "`;
the code uses `sep = "and"`. The empty-parts case is unreachable
(`pysplit` never returns an empty list). -/
def authorYearBySep (sep : List Char) (r : Reference) : String :=
  let author := (fieldsGet r.fields "author" "Unknown").data
  let year := fieldsGet r.fields "year" "n.d."
  match pysplit sep author with
  | [] => String.mk (lastSegOf []) ++ " (" ++ year ++ ")"
  | [a] => String.mk (lastSegOf a) ++ " (" ++ year ++ ")"
  | [a, b] => String.mk (lastSegOf a) ++ " and " ++ String.mk (lastSegOf b)
      ++ " (" ++ year ++ ")"
  | a :: _ :: _ :: _ => String.mk (lastSegOf a) ++ " et al. (" ++ year ++ ")"

/-- Standardized filename as worded by the spec, parameterized by the author
separator used for the first-author last name: `{LastName}_{Year}_{ShortTitle}.pdf`
with `Year` the raw field or `XXXX`, and `ShortTitle` the first at most three
whitespace-split words of the title stripped of non-alphanumeric,
non-whitespace characters, joined with `_`. -/
def filenameBySep (sep : List Char) (r : Reference) : String :=
  let author := (fieldsGet r.fields "author" "Unknown").data
  let year := fieldsGet r.fields "year" "XXXX"
  let title := (fieldsGet r.fields "title" "Untitled").data
  let lastName := lastSegOf ((pysplit sep author).getD 0 [])
  let shortTitle := String.intercalate "_"
    (((pysplitWs (title.filter (fun c => c.isAlphanum || c.isWhitespace))).take 3).map
      String.mk)
  String.mk lastName ++ "_" ++ year ++ "_" ++ shortTitle ++ ".pdf"

/-- Concatenation of a list of strings (`"".join` in Python terms). -/
def strJoin (l : List String) : List Char :=
  match l with
  | [] => []
  | s :: rest => s.data ++ strJoin rest

/-- Single-entry BibTeX block as worded by the spec (4.1 serialize, single
entry form), parameterized by the rendered entry type: opening tag with the
entry type and key, one line per field in order rendered as
`  name = {value},`, closing brace. -/
def entryBlockWithType (t : String) (r : Reference) : String :=
  String.mk (("@" ++ t ++ "\x7b" ++ r.key ++ ",\n").data
    ++ strJoin (r.fields.map (fun f => "  " ++ f.1 ++ " = \x7b" ++ f.2 ++ "\x7d,\n"))
    ++ "\x7d".data)

/-- The claim's reading of `format_bibtex_entry`: the entry type is preserved
verbatim as stored in the Reference. -/
def entryBlockVerbatim (r : Reference) : String :=
  entryBlockWithType r.entry_type r

/-- Renaming `{original_key}_{1}` that duplicate resolution applies to the
second occurrence of a key. -/
def rename1 (r : Reference) : Reference :=
  { r with original_key := some r.key, key := r.key ++ "_1" }

/-! Spec-modelled BibTeX text format. The textual serializer and parser of
the repository live in the external `bibtexparser` library (only the
records-to-Reference mapping is in `src/`), so the text format is modelled
from the spec: serialize renders each Reference as
`@{entry_type}{{key},` + one `name = {value},` line per field + `}` (spec
4.1), and parse consumes exactly the standard entry syntax
`@type{key, field = {value}, ...}` (spec 6), line by line. -/

/-- Opening-brace character (`{`). -/
def lbrace : Char := Char.ofNat 123

/-- Closing-brace character (`}`). -/
def rbrace : Char := Char.ofNat 125

/-- Modelled from the spec: opening tag of one serialized entry,
`@{entry_type}{{key},`. -/
def refHeaderLine (r : Reference) : List Char :=
  '@' :: r.entry_type.data ++ lbrace :: r.key.data ++ [',']

/-- Modelled from the spec: one serialized field line, `name = {value},`. -/
def fieldLine (f : String × String) : List Char :=
  f.1.data ++ ' ' :: '=' :: ' ' :: lbrace :: f.2.data ++ [rbrace, ',']

/-- Modelled from the spec: the lines of one serialized entry block. -/
def refLines (r : Reference) : List (List Char) :=
  refHeaderLine r :: (r.fields.map fieldLine ++ [[rbrace]])

/-- Lines of a whole serialized reference sequence. -/
def allLines : List Reference → List (List Char)
  | [] => []
  | r :: rest => refLines r ++ allLines rest

/-- Join lines into newline-terminated text. -/
def joinLines : List (List Char) → List Char
  | [] => []
  | l :: ls => l ++ '\n' :: joinLines ls

/-- Modelled from the spec: serialize a reference sequence to BibTeX text
(the serializer of `BibTexManager.write_bibtex_file` is the external
`bibtexparser.dump`). -/
def serializeBib (refs : List Reference) : String :=
  String.mk (joinLines (allLines refs))

/-- Split newline-terminated text into its lines; a trailing fragment with
no final newline becomes a last line. -/
def splitNLr : List Char → List (List Char)
  | [] => []
  | c :: rest =>
    if c = '\n' then [] :: splitNLr rest
    else
      if (splitNLr rest).isEmpty then [[c]]
      else (c :: (splitNLr rest).headD []) :: (splitNLr rest).tail

/-- A parsed entry: its `(key, entry_type, fields)` triple. -/
abbrev RefTriple := String × String × List (String × String)

/-- Modelled from the spec: parse an opening tag `@type{key,` into
`(entry_type, key)` — the type is the text before the first `{`, the key the
text after it up to the first `,`. -/
def parseHeaderLine : List Char → Option (String × String)
  | [] => none
  | c :: rest =>
    if c = '@' ∧ lbrace ∈ rest then
      some (String.mk (rest.takeWhile (fun x => !(x == lbrace))),
        String.mk (((rest.dropWhile (fun x => !(x == lbrace))).drop 1).takeWhile
          (fun x => !(x == ','))))
    else none

/-- Modelled from the spec: parse one field line `name = {value},` — the
name is the text before the first space, the value the text between the
following ` = \x7b` and the closing `\x7d,`. -/
def parseFieldLine (line : List Char) : Option (String × String) :=
  let n := line.takeWhile (fun x => !(x == ' '))
  let rest := line.dropWhile (fun x => !(x == ' '))
  if [' ', '=', ' ', lbrace].isPrefixOf rest ∧ [rbrace, ','].isSuffixOf rest then
    some (String.mk n, String.mk ((rest.drop 4).dropLast.dropLast))
  else none

/-- Parse a block of field lines. -/
def parseFields : List (List Char) → Option (List (String × String))
  | [] => some []
  | l :: ls =>
    (parseFieldLine l).bind (fun f => (parseFields ls).map (fun fs => f :: fs))

/-- Split a line list at the first closing-brace line `}`. -/
def splitClose : List (List Char) → Option (List (List Char) × List (List Char))
  | [] => none
  | l :: ls =>
    if l = [rbrace] then some ([], ls)
    else (splitClose ls).map (fun ab => (l :: ab.1, ab.2))

/-- Worker for the entry parser; `fuel` bounds the number of entries and each
entry consumes at least its header line, so `fuel = lines.length` is always
enough. -/
def parseGo : Nat → List (List Char) → Option (List RefTriple)
  | _, [] => some []
  | 0, _ :: _ => none
  | fuel + 1, header :: rest =>
    (parseHeaderLine header).bind (fun tk =>
      (splitClose rest).bind (fun fr =>
        (parseFields fr.1).bind (fun fs =>
          (parseGo fuel fr.2).map (fun out => (tk.2, tk.1, fs) :: out))))

/-- Modelled from the spec: parse BibTeX text into the ordered
`(key, entry_type, fields)` triples of its entries (the tokenizer of
`BibTexManager.parse_bibtex_file` is the external `bibtexparser.load`). -/
def parseBib (text : String) : Option (List RefTriple) :=
  parseGo (splitNLr text.data).length (splitNLr text.data)

/-- The `(key, entry_type, fields)` triple of a Reference. -/
def tripleOf (r : Reference) : RefTriple :=
  (r.key, r.entry_type, r.fields)

/-- Well-formedness of one Reference's strings for the BibTeX grammar (the
spec excludes grammar edge cases): the entry type contains no `{` and no
newline, the key contains no `,` and no newline, field names contain no
space and no newline, and field values contain no newline. -/
def wfRef (r : Reference) : Prop :=
  lbrace ∉ r.entry_type.data ∧ '\n' ∉ r.entry_type.data
  ∧ ',' ∉ r.key.data ∧ '\n' ∉ r.key.data
  ∧ ∀ f ∈ r.fields, ' ' ∉ f.1.data ∧ '\n' ∉ f.1.data ∧ '\n' ∉ f.2.data

instance (r : Reference) : Decidable (wfRef r) := by
  unfold wfRef
  infer_instance

/-! Lemmas about duplicate-key resolution. -/

/-- Key produced for the `i`-th occurrence of key `k` (`i = 0` keeps `k`). -/
def dupKey (k : String) (i : Nat) : String :=
  if i = 0 then k else k ++ "_" ++ toString i

theorem countKey_append (k : String) (xs ys : List Reference) :
    countKey k (xs ++ ys) = countKey k xs + countKey k ys := by
  simp [countKey, List.filter_append]

theorem countKey_singleton (k : String) (r : Reference) :
    countKey k [r] = if r.key = k then 1 else 0 := by
  by_cases h : r.key = k <;> simp [countKey, h]

theorem countKey_eq_zero {k : String} {xs : List Reference}
    (h : ∀ r ∈ xs, r.key ≠ k) : countKey k xs = 0 := by
  simp only [countKey, List.length_eq_zero, List.filter_eq_nil_iff]
  intro r hr
  simpa using h r hr

theorem countKey_eq_length {k : String} {xs : List Reference}
    (h : ∀ r ∈ xs, r.key = k) : countKey k xs = xs.length := by
  simp only [countKey]
  rw [List.filter_eq_self.mpr]
  intro r hr
  simpa using h r hr

theorem countKey_self_nodup {xs : List Reference}
    (h : (xs.map Reference.key).Nodup) : ∀ r ∈ xs, countKey r.key xs = 1 := by
  induction xs with
  | nil => intro r hr; cases hr
  | cons a rest ih =>
    simp only [List.map_cons, List.nodup_cons] at h
    intro r hr
    rcases List.mem_cons.mp hr with rfl | hr'
    · have h0 : countKey r.key rest = 0 := by
        apply countKey_eq_zero
        intro x hx hxk
        exact h.1 (hxk ▸ List.mem_map_of_mem Reference.key hx)
      have : countKey r.key (r :: rest) = countKey r.key [r] + countKey r.key rest := by
        simpa using countKey_append r.key [r] rest
      rw [this, h0, countKey_singleton]
      simp
    · have h1 : countKey r.key rest = 1 := ih h.2 r hr'
      have hak : a.key ≠ r.key := by
        intro hk
        exact h.1 (hk ▸ List.mem_map_of_mem Reference.key hr')
      have : countKey r.key (a :: rest) = countKey r.key [a] + countKey r.key rest := by
        simpa using countKey_append r.key [a] rest
      rw [this, h1, countKey_singleton, if_neg hak]

theorem resolveGo_length (rest : List Reference) :
    ∀ seen, (resolveGo seen rest).length = rest.length := by
  induction rest with
  | nil => intro seen; rfl
  | cons r rest ih => intro seen; simp [resolveGo, ih]

theorem resolve_duplicate_keys_length (refs : List Reference) :
    (resolve_duplicate_keys refs).length = refs.length :=
  resolveGo_length refs []

theorem resolveGo_append (xs ys : List Reference) :
    ∀ seen, resolveGo seen (xs ++ ys) = resolveGo seen xs ++ resolveGo (seen ++ xs) ys := by
  induction xs with
  | nil => intro seen; simp [resolveGo]
  | cons x rest ih =>
    intro seen
    simp only [List.cons_append, resolveGo, List.append_eq]
    rw [ih (seen ++ [x])]
    simp [List.append_assoc]

theorem resolveGo_getD (rest : List Reference) :
    ∀ seen p, p < rest.length →
      (resolveGo seen rest).getD p dref =
        (if countKey (rest.getD p dref).key (seen ++ rest.take p) = 0
         then rest.getD p dref
         else renameIdx (countKey (rest.getD p dref).key (seen ++ rest.take p))
           (rest.getD p dref)) := by
  induction rest with
  | nil => intro seen p hp; cases hp
  | cons r rest ih =>
    intro seen p hp
    cases p with
    | zero => simp [resolveGo]
    | succ p =>
      have hp' : p < rest.length := Nat.lt_of_succ_lt_succ hp
      simp only [resolveGo, List.getD_cons_succ, List.take_succ_cons]
      rw [ih (seen ++ [r]) p hp']
      simp [List.append_assoc]

theorem resolveGo_id (rest : List Reference) :
    ∀ seen, (∀ r ∈ rest, countKey r.key seen = 0) →
      (rest.map Reference.key).Nodup → resolveGo seen rest = rest := by
  induction rest with
  | nil => intro seen _ _; rfl
  | cons r rest ih =>
    intro seen h hnd
    simp only [List.map_cons, List.nodup_cons] at hnd
    have h0 : countKey r.key seen = 0 := h r (List.mem_cons_self r rest)
    have ha : ∀ x ∈ rest, countKey x.key (seen ++ [r]) = 0 := by
      intro x hx
      have hne : ¬ r.key = x.key := fun hk =>
        hnd.1 (hk ▸ List.mem_map_of_mem Reference.key hx)
      rw [countKey_append, h x (List.mem_cons_of_mem r hx), countKey_singleton, if_neg hne]
    simp only [resolveGo, h0, ih (seen ++ [r]) ha hnd.2, if_pos]

theorem renameIdx_one (r : Reference) : renameIdx 1 r = rename1 r := by
  simp only [renameIdx, rename1]
  congr 1
  rw [String.append_assoc]
  congr 1

theorem resolveGo_once (rest : List Reference) :
    ∀ seen, (∀ r ∈ rest, countKey r.key seen = 1) →
      (rest.map Reference.key).Nodup → resolveGo seen rest = rest.map rename1 := by
  induction rest with
  | nil => intro seen _ _; rfl
  | cons r rest ih =>
    intro seen h hnd
    simp only [List.map_cons, List.nodup_cons] at hnd
    have h1 : countKey r.key seen = 1 := h r (List.mem_cons_self r rest)
    have ha : ∀ x ∈ rest, countKey x.key (seen ++ [r]) = 1 := by
      intro x hx
      have hne : ¬ r.key = x.key := fun hk =>
        hnd.1 (hk ▸ List.mem_map_of_mem Reference.key hx)
      rw [countKey_append, h x (List.mem_cons_of_mem r hx), countKey_singleton, if_neg hne]
    simp only [resolveGo, h1, List.map_cons]
    rw [if_neg (by omega), renameIdx_one, ih (seen ++ [r]) ha hnd.2]

theorem resolveGo_allsame_map (k : String) (rest : List Reference) :
    ∀ seen, (∀ r ∈ rest, r.key = k) →
      (resolveGo seen rest).map Reference.key
        = (List.range rest.length).map (fun j => dupKey k (countKey k seen + j)) := by
  induction rest with
  | nil => intro seen _; rfl
  | cons r rest ih =>
    intro seen h
    have hk : r.key = k := h r (List.mem_cons_self r rest)
    have hc1 : countKey k (seen ++ [r]) = countKey k seen + 1 := by
      rw [countKey_append, countKey_singleton, if_pos hk]
    have hmain := ih (seen ++ [r]) (fun x hx => h x (List.mem_cons_of_mem r hx))
    rw [hc1] at hmain
    simp only [resolveGo, List.map_cons, hmain, List.length_cons,
      List.range_succ_eq_map, List.map_map]
    have hhead : (if countKey r.key seen = 0 then r
        else renameIdx (countKey r.key seen) r).key
        = dupKey k (countKey k seen + 0) := by
      rw [Nat.add_zero, ← hk]
      by_cases h0 : countKey r.key seen = 0
      · rw [if_pos h0, h0]
        simp [dupKey]
      · rw [if_neg h0]
        simp [renameIdx, dupKey, h0]
    have hcomp : ((fun j => dupKey k (countKey k seen + j)) ∘ Nat.succ)
        = (fun j => dupKey k (countKey k seen + 1 + j)) := by
      funext j
      show dupKey k (countKey k seen + Nat.succ j) = dupKey k (countKey k seen + 1 + j)
      congr 1
      omega
    rw [hhead, hcomp]

/-- CLAIM C1 — For every input sequence, duplicate resolution keeps the
length and order; the reference at position `p` is unchanged when it is the
first occurrence of its key (in particular when its key is not duplicated),
and when `i ≥ 1` earlier occurrences of its key exist it is renamed to
`{key}_{i}` with `original_key` set to the key it held before renaming.
For a sequence of `n ≥ 2` references all sharing key `k`, the resolved keys
are `k, k_1, ..., k_{n-1}` in order and every renamed entry's
`original_key` is `k`. -/
theorem resolve_duplicate_keys_spec (refs : List Reference) :
    (resolve_duplicate_keys refs).length = refs.length
    ∧ (∀ p, p < refs.length →
        (resolve_duplicate_keys refs).getD p dref =
          (if countKey (refs.getD p dref).key (refs.take p) = 0
           then refs.getD p dref
           else renameIdx (countKey (refs.getD p dref).key (refs.take p))
             (refs.getD p dref)))
    ∧ (∀ k, 2 ≤ refs.length → (∀ r ∈ refs, r.key = k) →
        (resolve_duplicate_keys refs).map Reference.key
          = k :: (List.range (refs.length - 1)).map (fun i => k ++ "_" ++ toString (i + 1))
        ∧ ∀ p, 0 < p → p < refs.length →
            ((resolve_duplicate_keys refs).getD p dref).original_key = some k) := by
  refine ⟨resolve_duplicate_keys_length refs, ?_, ?_⟩
  · intro p hp
    have := resolveGo_getD refs [] p hp
    simpa [resolve_duplicate_keys] using this
  · intro k hlen hall
    constructor
    · have hmap := resolveGo_allsame_map k refs [] hall
      have hc0 : countKey k ([] : List Reference) = 0 := rfl
      rw [hc0] at hmap
      simp only [Nat.zero_add] at hmap
      rw [resolve_duplicate_keys, hmap]
      obtain ⟨m, hm⟩ : ∃ m, refs.length = m + 1 := by
        rcases refs with _ | ⟨a, rest⟩
        · simp at hlen
        · exact ⟨rest.length, by simp⟩
      rw [hm, List.range_succ_eq_map]
      simp only [List.map_cons, List.map_map, Nat.add_sub_cancel]
      have h1 : dupKey k 0 = k := by simp [dupKey]
      have h2 : (dupKey k ∘ Nat.succ) = (fun i => k ++ "_" ++ toString (i + 1)) := by
        funext i
        show dupKey k (Nat.succ i) = k ++ "_" ++ toString (i + 1)
        simp [dupKey]
      rw [h1, h2]
    · intro p hp0 hp
      have hgd := resolveGo_getD refs [] p hp
      rw [List.nil_append] at hgd
      have hmem : refs.getD p dref ∈ refs := by
        rw [List.getD_eq_getElem refs dref hp]
        exact List.getElem_mem hp
      have hkey : (refs.getD p dref).key = k := hall _ hmem
      have hck : countKey (refs.getD p dref).key (refs.take p) = p := by
        rw [hkey, countKey_eq_length (fun r hr => hall r (List.take_subset p refs hr))]
        exact List.length_take_of_le (Nat.le_of_lt hp)
      show ((resolveGo [] refs).getD p dref).original_key = some k
      rw [hgd, hck, if_neg (by omega)]
      simp only [renameIdx]
      rw [hkey]

/-- Demonstration input for C1's witness: three references sharing key `k`. -/
def demoC1 : List Reference :=
  [⟨"k", "article", [], none, none⟩, ⟨"k", "book", [], none, none⟩,
   ⟨"k", "misc", [], none, none⟩]

/-- Witness for C1 at a concrete input: three references all keyed `k`
resolve to keys `k, k_1, k_2` with the renamed entries' `original_key = k`. -/
theorem resolve_duplicate_keys_spec_witness :
    2 ≤ demoC1.length
    ∧ (resolve_duplicate_keys demoC1).map Reference.key = ["k", "k_1", "k_2"]
    ∧ ((resolve_duplicate_keys demoC1).getD 1 dref).original_key = some "k"
    ∧ ((resolve_duplicate_keys demoC1).getD 2 dref).original_key = some "k" := by
  have h := (resolve_duplicate_keys_spec demoC1).2.2 "k" (by decide) (by decide)
  exact ⟨by decide, h.1.trans (by decide), h.2 1 (by decide) (by decide),
    h.2 2 (by decide) (by decide)⟩

/-- CLAIM C7 — Duplicate resolution is idempotent after one pass: on a
sequence in which no two references share a key, it returns the sequence
unchanged (same keys, same `original_key` values, same order). -/
theorem resolve_duplicate_keys_idempotent (refs : List Reference)
    (h : (refs.map Reference.key).Nodup) : resolve_duplicate_keys refs = refs := by
  apply resolveGo_id
  · intro r _hr
    rfl
  · exact h

/-- Demonstration input for C7's witness: two references with distinct keys. -/
def demoC7 : List Reference :=
  [⟨"a", "article", [], none, none⟩, ⟨"b", "book", [], none, none⟩]

/-- Witness for C7 at a concrete already-resolved input. -/
theorem resolve_duplicate_keys_idempotent_witness :
    (demoC7.map Reference.key).Nodup ∧ resolve_duplicate_keys demoC7 = demoC7 :=
  ⟨by decide, resolve_duplicate_keys_idempotent demoC7 (by decide)⟩

/-- Demonstration input for C10: keys `k`, `k`, `k_1` in that order. -/
def demoC10 : List Reference :=
  [⟨"k", "article", [], none, none⟩, ⟨"k", "book", [], none, none⟩,
   ⟨"k_1", "misc", [], none, none⟩]

/-- CLAIM C10 — Single-pass resolution does not guarantee unique output keys:
on keys `k`, `k`, `k_1` the second reference is renamed to `k_1`, which
collides with the third reference's existing key, so the output keys
`k, k_1, k_1` are not pairwise distinct. -/
theorem resolve_duplicate_keys_not_unique :
    (resolve_duplicate_keys demoC10).map Reference.key = ["k", "k_1", "k_1"]
    ∧ ¬ ((resolve_duplicate_keys demoC10).map Reference.key).Nodup := by
  constructor <;> decide

/-! Lemmas about project insertion and import. -/

theorem any_key_iff (refs : List (String × Reference)) (k : String) :
    (refs.any (fun p => p.1 == k)) = true ↔ k ∈ refs.map Prod.fst := by
  simp [List.any_eq_true]

theorem mem_keys_add_reference (refs : List (String × Reference)) (x : Reference)
    (k : String) (h : k ∈ refs.map Prod.fst) :
    k ∈ (add_reference refs x).map Prod.fst := by
  by_cases hany : (refs.any (fun p => p.1 == x.key)) = true
  · have hkeys : (add_reference refs x).map Prod.fst = refs.map Prod.fst := by
      simp only [add_reference, if_pos hany, List.map_map]
      congr 1
      funext p
      by_cases hp : p.1 == x.key <;> simp [Function.comp, hp]
    rw [hkeys]
    exact h
  · simp only [add_reference, if_neg hany, List.map_append]
    exact List.mem_append_left _ h

theorem self_mem_keys_add_reference (refs : List (String × Reference)) (x : Reference) :
    x.key ∈ (add_reference refs x).map Prod.fst := by
  by_cases hany : (refs.any (fun p => p.1 == x.key)) = true
  · have hkeys : (add_reference refs x).map Prod.fst = refs.map Prod.fst := by
      simp only [add_reference, if_pos hany, List.map_map]
      congr 1
      funext p
      by_cases hp : p.1 == x.key <;> simp [Function.comp, hp]
    rw [hkeys]
    exact (any_key_iff refs x.key).mp hany
  · simp [add_reference, if_neg hany]

theorem mem_keys_foldl (l : List Reference) :
    ∀ acc k, k ∈ acc.map Prod.fst →
      k ∈ (l.foldl add_reference acc).map Prod.fst := by
  induction l with
  | nil => intro acc k h; exact h
  | cons r rest ih =>
    intro acc k h
    exact ih (add_reference acc r) k (mem_keys_add_reference acc r k h)

theorem key_mem_foldl_of_mem (l : List Reference) :
    ∀ acc r, r ∈ l → r.key ∈ (l.foldl add_reference acc).map Prod.fst := by
  induction l with
  | nil => intro acc r h; cases h
  | cons x rest ih =>
    intro acc r h
    rcases List.mem_cons.mp h with rfl | h'
    · exact mem_keys_foldl rest (add_reference acc r) r.key
        (self_mem_keys_add_reference acc r)
    · exact ih (add_reference acc x) r h'

theorem foldl_add_reference_append (l : List Reference) :
    ∀ acc, (∀ r ∈ l, r.key ∉ acc.map Prod.fst) → (l.map Reference.key).Nodup →
      l.foldl add_reference acc = acc ++ l.map (fun r => (r.key, r)) := by
  induction l with
  | nil => intro acc _ _; simp
  | cons r rest ih =>
    intro acc hnotin hnd
    simp only [List.map_cons, List.nodup_cons] at hnd
    have hany : ¬ ((acc.any (fun p => p.1 == r.key)) = true) := by
      intro hc
      exact hnotin r (List.mem_cons_self r rest) ((any_key_iff acc r.key).mp hc)
    have hstep : add_reference acc r = acc ++ [(r.key, r)] := by
      rw [add_reference, if_neg hany]
    simp only [List.foldl_cons, hstep]
    rw [ih (acc ++ [(r.key, r)])]
    · simp [List.append_assoc]
    · intro x hx
      simp only [List.map_append, List.mem_append, List.map_cons, List.map_nil]
      rintro (hmem | hmem)
      · exact hnotin x (List.mem_cons_of_mem r hx) hmem
      · simp only [List.mem_singleton] at hmem
        exact hnd.1 (hmem ▸ List.mem_map_of_mem Reference.key hx)
    · exact hnd.2

/-- CLAIM C2 — `import_bibtex` concatenates the project's current references
(as prior occurrences) with the parsed ones, resolves duplicates over the
combined sequence, returns exactly the resolved entries whose key was not
already present, and inserts each returned entry into the project.
Consequently, importing a file with distinct, suffix-fresh keys into an
empty project adds it unchanged, and importing the same file a second time
renames every incoming entry to `{key}_1` (with `original_key` set) and
reports all of them as new. -/
theorem import_bibtex_spec :
    (∀ projRefs parsed,
      (import_bibtex projRefs parsed).2
        = (resolve_duplicate_keys (projRefs.map Prod.snd ++ parsed)).filter
            (fun r => !((projRefs.map Prod.fst).contains r.key)))
    ∧ (∀ projRefs parsed r, r ∈ (import_bibtex projRefs parsed).2 →
        r.key ∈ (import_bibtex projRefs parsed).1.map Prod.fst)
    ∧ (∀ parsed, (parsed.map Reference.key).Nodup →
        (∀ r ∈ parsed, (r.key ++ "_1") ∉ parsed.map Reference.key) →
        (import_bibtex [] parsed).2 = parsed
        ∧ (import_bibtex [] parsed).1 = parsed.map (fun r => (r.key, r))
        ∧ (import_bibtex (parsed.map (fun r => (r.key, r))) parsed).2
            = parsed.map rename1) := by
  refine ⟨fun projRefs parsed => rfl, ?_, ?_⟩
  · intro projRefs parsed r hr
    exact key_mem_foldl_of_mem _ projRefs r hr
  · intro parsed hnd hfresh
    have hres : resolve_duplicate_keys parsed = parsed :=
      resolveGo_id parsed [] (fun r _ => rfl) hnd
    have h2 : (import_bibtex [] parsed).2 = parsed := by
      show ((resolve_duplicate_keys (([] : List (String × Reference)).map Prod.snd
          ++ parsed)).filter _) = parsed
      simp only [List.map_nil, List.nil_append, hres]
      apply List.filter_eq_self.mpr
      intro r _hr
      simp [List.contains]
    refine ⟨h2, ?_, ?_⟩
    · show ((import_bibtex [] parsed).2.foldl add_reference []) = _
      rw [h2, foldl_add_reference_append parsed [] (by simp) hnd]
      simp
    · show ((resolve_duplicate_keys ((parsed.map (fun r => (r.key, r))).map Prod.snd
          ++ parsed)).filter _) = parsed.map rename1
      have hsnd : (parsed.map (fun r => (r.key, r))).map Prod.snd = parsed := by
        rw [List.map_map,
          show (Prod.snd ∘ fun r : Reference => (r.key, r)) = id from rfl, List.map_id]
      have hfst : (parsed.map (fun r => (r.key, r))).map Prod.fst
          = parsed.map Reference.key := by
        rw [List.map_map]
        rfl
      rw [hsnd, hfst]
      have hsplit : resolve_duplicate_keys (parsed ++ parsed)
          = parsed ++ parsed.map rename1 := by
        rw [resolve_duplicate_keys, resolveGo_append parsed parsed [],
          List.nil_append]
        rw [show resolveGo [] parsed = resolve_duplicate_keys parsed from rfl, hres]
        rw [resolveGo_once parsed parsed (countKey_self_nodup hnd) hnd]
      rw [hsplit, List.filter_append]
      have hleft : parsed.filter
          (fun r => !((parsed.map Reference.key).contains r.key)) = [] := by
        apply List.filter_eq_nil_iff.mpr
        intro r hr
        simp [List.mem_map_of_mem Reference.key hr]
      have hright : (parsed.map rename1).filter
          (fun r => !((parsed.map Reference.key).contains r.key))
          = parsed.map rename1 := by
        apply List.filter_eq_self.mpr
        intro r hr
        rcases List.mem_map.mp hr with ⟨x, hx, rfl⟩
        have : (x.key ++ "_1") ∉ parsed.map Reference.key := hfresh x hx
        simp only [rename1, Bool.not_eq_true']
        simpa using this
      rw [hleft, hright, List.nil_append]

/-- Demonstration input for C2's witness: two references with distinct,
suffix-fresh keys. -/
def demoC2 : List Reference :=
  [⟨"a", "article", [("title", "T1")], none, none⟩, ⟨"b", "book", [], none, none⟩]

/-- Project state after the first demo import. -/
def demoC2Proj : List (String × Reference) := demoC2.map (fun r => (r.key, r))

/-- Witness for C2 at a concrete input: the first import into an empty
project returns the parsed references unchanged, and the second import of
the same file returns them renamed with suffix `_1` and `original_key` set. -/
theorem import_bibtex_spec_witness :
    (demoC2.map Reference.key).Nodup
    ∧ (import_bibtex [] demoC2).2 = demoC2
    ∧ (import_bibtex demoC2Proj demoC2).2
        = [⟨"a_1", "article", [("title", "T1")], some "a", none⟩,
           ⟨"b_1", "book", [], some "b", none⟩] := by
  have h := import_bibtex_spec.2.2 demoC2 (by decide) (by decide)
  exact ⟨by decide, h.1, h.2.2.trans (by decide)⟩

/-! Lemmas about Python-style splitting. -/

theorem splitOnGo_length_pos (sep : List Char) :
    ∀ fuel xs acc, 1 ≤ (splitOnGo sep fuel xs acc).length := by
  intro fuel
  induction fuel with
  | zero =>
    intro xs acc
    cases xs <;> simp [splitOnGo]
  | succ fuel ih =>
    intro xs acc
    cases xs with
    | nil => simp [splitOnGo]
    | cons x rest =>
      by_cases hpre : sep.isPrefixOf (x :: rest) = true
      · simp [splitOnGo, hpre]
      · simp only [splitOnGo, if_neg hpre]
        exact ih rest (x :: acc)

theorem pysplit_ne_nil (sep xs : List Char) : pysplit sep xs ≠ [] := by
  have h := splitOnGo_length_pos sep xs.length xs []
  intro hc
  rw [show splitOnGo sep xs.length xs [] = pysplit sep xs from rfl, hc] at h
  simp at h

theorem isPrefixOf_nil_eq_false {sep : List Char} (hsep : sep ≠ []) :
    sep.isPrefixOf ([] : List Char) = false := by
  cases sep with
  | nil => exact absurd rfl hsep
  | cons a s => rfl

theorem containsSub_iff_splitOnGo {sep : List Char} (hsep : sep ≠ []) :
    ∀ fuel xs acc, xs.length ≤ fuel →
      (containsSub sep xs = true ↔ 2 ≤ (splitOnGo sep fuel xs acc).length) := by
  intro fuel
  induction fuel with
  | zero =>
    intro xs acc hlen
    have hxs : xs = [] := List.length_eq_zero.mp (Nat.le_zero.mp hlen)
    subst hxs
    simp [splitOnGo, containsSub, isPrefixOf_nil_eq_false hsep]
  | succ fuel ih =>
    intro xs acc hlen
    cases xs with
    | nil => simp [splitOnGo, containsSub, isPrefixOf_nil_eq_false hsep]
    | cons x rest =>
      by_cases hpre : sep.isPrefixOf (x :: rest) = true
      · simp only [containsSub, hpre, Bool.true_or, true_iff, splitOnGo,
          eq_self_iff_true, if_true, List.length_cons]
        have := splitOnGo_length_pos sep fuel (List.drop (sep.length - 1) rest) []
        omega
      · simp only [containsSub, splitOnGo]
        rw [if_neg hpre]
        have hrest : rest.length ≤ fuel := by
          simp only [List.length_cons] at hlen
          omega
        rw [← ih rest (x :: acc) hrest]
        simp [hpre]

theorem containsSub_iff_parts (sep : List Char) (hsep : sep ≠ []) (xs : List Char) :
    containsSub sep xs = true ↔ 2 ≤ (pysplit sep xs).length :=
  containsSub_iff_splitOnGo hsep xs.length xs [] (le_refl _)

/-- CLAIM C4 (amended) — the author-year short form is computed exactly as
the claim states except that the author separator is the substring `"and"`
(no surrounding spaces required): splitting the author field on `"and"`
gives the author segments; each rendered last name is its segment's part
before the first comma, trimmed; one segment renders `L (year)`, two render
`L1 and L2 (year)`, three or more render `L1 et al. (year)`; the author
defaults to `Unknown` and the year to `n.d.`. -/
theorem get_formatted_author_year_spec (r : Reference) :
    get_formatted_author_year r = authorYearBySep "and".data r := by
  have hne := pysplit_ne_nil "and".data (fieldsGet r.fields "author" "Unknown").data
  have hiff := containsSub_iff_parts "and".data (by decide)
    (fieldsGet r.fields "author" "Unknown").data
  simp only [get_formatted_author_year, authorYearBySep]
  rcases hp : pysplit "and".data (fieldsGet r.fields "author" "Unknown").data
    with _ | ⟨a, _ | ⟨b, _ | ⟨c, t⟩⟩⟩
  · exact absurd hp hne
  · rw [hp] at hiff
    have hcs : containsSub "and".data (fieldsGet r.fields "author" "Unknown").data
        = false := by
      cases hb : containsSub "and".data (fieldsGet r.fields "author" "Unknown").data
      · rfl
      · have h2 := hiff.mp hb
        simp at h2
    simp [hcs]
  · rw [hp] at hiff
    have hcs : containsSub "and".data (fieldsGet r.fields "author" "Unknown").data
        = true := hiff.mpr (by simp)
    simp [hcs]
  · rw [hp] at hiff
    have hcs : containsSub "and".data (fieldsGet r.fields "author" "Unknown").data
        = true := hiff.mpr (by simp only [List.length_cons]; omega)
    have hl2 : ¬ ((a :: b :: c :: t).length = 2) := by
      simp only [List.length_cons]
      omega
    simp [hcs, hl2]

/-- Concrete input on which C4's claimed separator differs from the code:
an author whose last name contains the substring `and`. -/
def sandlerRef : Reference :=
  ⟨"s2020", "article", [("author", "Sandler, K."), ("year", "2020")], none, none⟩

/-- CLAIM C4 counterexample — the code splits `author` on the substring
`"and"`, not on `" and "` with surrounding spaces: on the single author
`Sandler, K.` the code yields `S and ler (2020)` while the claim's rule
yields `Sandler (2020)`. -/
theorem get_formatted_author_year_counterexample :
    get_formatted_author_year sandlerRef = "S and ler (2020)"
    ∧ authorYearBySep " and ".data sandlerRef = "Sandler (2020)"
    ∧ get_formatted_author_year sandlerRef ≠ authorYearBySep " and ".data sandlerRef := by
  refine ⟨by decide, by decide, by decide⟩

/-- Reference for C6's worked example. -/
def doeRef : Reference :=
  ⟨"d2021", "article",
   [("author", "Doe, J."), ("year", "2021"), ("title", "A Study of Things!!")],
   none, none⟩

/-- CLAIM C6 (amended) — the standardized filename is
`{LastName}_{Year}_{ShortTitle}.pdf` exactly as the claim states except that
`LastName` comes from splitting the author field on the substring `"and"`
(no surrounding spaces required), as in the code's author-year rule; the
worked example `Doe, J.` / `2021` / `A Study of Things!!` yields
`Doe_2021_A_Study_of.pdf`. -/
theorem get_standardized_filename_spec :
    (∀ r : Reference, r.get_standardized_filename = filenameBySep "and".data r)
    ∧ doeRef.get_standardized_filename = "Doe_2021_A_Study_of.pdf" := by
  constructor
  · intro r
    rfl
  · decide

/-- Concrete input on which C6's claimed last-name rule differs from the
code. -/
def sandlerTitledRef : Reference :=
  ⟨"s2021", "article",
   [("author", "Sandler, K."), ("year", "2021"), ("title", "A Study")], none, none⟩

/-- CLAIM C6 counterexample — the filename's `LastName` is computed by
splitting the author on the substring `"and"`, not on `" and "`: on author
`Sandler, K.` the code yields `S_2021_A_Study.pdf` while the claim's rule
yields `Sandler_2021_A_Study.pdf`. -/
theorem get_standardized_filename_counterexample :
    Reference.get_standardized_filename sandlerTitledRef = "S_2021_A_Study.pdf"
    ∧ filenameBySep " and ".data sandlerTitledRef = "Sandler_2021_A_Study.pdf"
    ∧ Reference.get_standardized_filename sandlerTitledRef
        ≠ filenameBySep " and ".data sandlerTitledRef := by
  refine ⟨by decide, by decide, by decide⟩

/-! Lemmas about the single-entry BibTeX rendering. -/

theorem format_bibtex_entry_foldl (l : List (String × String)) :
    ∀ acc : String,
      (l.foldl (fun a fv => a ++ "  " ++ fv.1 ++ " = \x7b" ++ fv.2 ++ "\x7d,\n") acc).data
        = acc.data
          ++ strJoin (l.map (fun f => "  " ++ f.1 ++ " = \x7b" ++ f.2 ++ "\x7d,\n")) := by
  induction l with
  | nil => intro acc; simp [strJoin]
  | cons f rest ih =>
    intro acc
    simp only [List.foldl_cons, List.map_cons]
    rw [ih]
    simp only [strJoin, String.data_append, List.append_assoc]

/-- CLAIM C5 (amended) — `format_bibtex_entry` produces one entry block whose
opening tag contains the entry type lowercased (not preserved verbatim),
followed by the key, one line per field in the order provided rendered as
`  name = {value},`, and a closing brace. -/
theorem format_bibtex_entry_spec (r : Reference) :
    format_bibtex_entry r = entryBlockWithType (toLowerS r.entry_type) r := by
  apply String.ext
  simp only [format_bibtex_entry, entryBlockWithType]
  rw [String.data_append, format_bibtex_entry_foldl]

/-- Concrete input with a capitalized stored entry type. -/
def articleRef : Reference := ⟨"k1", "Article", [("title", "T")], none, none⟩

/-- CLAIM C5 counterexample — the entry type is not preserved verbatim:
`format_bibtex_entry` lowercases it, so a Reference storing `Article`
renders as `@article{...}`, not `@Article{...}`. -/
theorem format_bibtex_entry_counterexample :
    format_bibtex_entry articleRef = "@article\x7bk1,\n  title = \x7bT\x7d,\n\x7d"
    ∧ entryBlockVerbatim articleRef = "@Article\x7bk1,\n  title = \x7bT\x7d,\n\x7d"
    ∧ format_bibtex_entry articleRef ≠ entryBlockVerbatim articleRef := by
  refine ⟨by decide, by decide, by decide⟩

/-- The five recognized citation styles. -/
def citationStyles : List String := ["cite", "citep", "citet", "footcite", "textcite"]

/-- CLAIM C8 — for a recognized style the citation is `\{style}{{key}}`; any
unrecognized style falls back to `\cite{...}` rather than failing; for a
list of references the braces contain the comma-joined keys in the given
order; the same recognition/fallback applies to the multi-reference form. -/
theorem format_citation_spec :
    (∀ (r : Reference) (style : String), style ∈ citationStyles →
      format_citation r style = "\\" ++ style ++ "\x7b" ++ r.key ++ "\x7d")
    ∧ (∀ (r : Reference) (style : String), style ∉ citationStyles →
      format_citation r style = "\\cite\x7b" ++ r.key ++ "\x7d")
    ∧ (∀ (refs : List Reference) (style : String), style ∈ citationStyles →
      format_multiple_citations refs style
        = "\\" ++ style ++ "\x7b" ++ String.intercalate "," (refs.map Reference.key)
          ++ "\x7d")
    ∧ (∀ (refs : List Reference) (style : String), style ∉ citationStyles →
      format_multiple_citations refs style
        = "\\cite\x7b" ++ String.intercalate "," (refs.map Reference.key) ++ "\x7d") := by
  refine ⟨?_, ?_, ?_, ?_⟩
  · intro r style h
    simp only [citationStyles, List.mem_cons, List.mem_singleton,
      List.not_mem_nil, or_false] at h
    rcases h with rfl | rfl | rfl | rfl | rfl
    · rw [show ("\\" ++ "cite" ++ "\x7b" : String) = "\\cite\x7b" from by decide]
      rfl
    · rw [show ("\\" ++ "citep" ++ "\x7b" : String) = "\\citep\x7b" from by decide]
      rfl
    · rw [show ("\\" ++ "citet" ++ "\x7b" : String) = "\\citet\x7b" from by decide]
      rfl
    · rw [show ("\\" ++ "footcite" ++ "\x7b" : String) = "\\footcite\x7b" from by decide]
      rfl
    · rw [show ("\\" ++ "textcite" ++ "\x7b" : String) = "\\textcite\x7b" from by decide]
      rfl
  · intro r style h
    simp only [citationStyles, List.mem_cons, List.mem_singleton,
      List.not_mem_nil, or_false, not_or] at h
    simp only [format_citation, if_neg h.1, if_neg h.2.1, if_neg h.2.2.1,
      if_neg h.2.2.2.1, if_neg h.2.2.2.2]
  · intro refs style h
    simp only [citationStyles, List.mem_cons, List.mem_singleton,
      List.not_mem_nil, or_false] at h
    rcases h with rfl | rfl | rfl | rfl | rfl
    · rw [show ("\\" ++ "cite" ++ "\x7b" : String) = "\\cite\x7b" from by decide]
      rfl
    · rw [show ("\\" ++ "citep" ++ "\x7b" : String) = "\\citep\x7b" from by decide]
      rfl
    · rw [show ("\\" ++ "citet" ++ "\x7b" : String) = "\\citet\x7b" from by decide]
      rfl
    · rw [show ("\\" ++ "footcite" ++ "\x7b" : String) = "\\footcite\x7b" from by decide]
      rfl
    · rw [show ("\\" ++ "textcite" ++ "\x7b" : String) = "\\textcite\x7b" from by decide]
      rfl
  · intro refs style h
    simp only [citationStyles, List.mem_cons, List.mem_singleton,
      List.not_mem_nil, or_false, not_or] at h
    simp only [format_multiple_citations, if_neg h.1, if_neg h.2.1, if_neg h.2.2.1,
      if_neg h.2.2.2.1, if_neg h.2.2.2.2]

/-- Reference for C8's worked example. -/
def smithRef : Reference := ⟨"smith2020", "article", [], none, none⟩

/-- Witness for C8 at concrete inputs: `citep` on `smith2020` yields
`\citep{smith2020}`, and the multi-reference form comma-joins the keys. -/
theorem format_citation_spec_witness :
    "citep" ∈ citationStyles
    ∧ format_citation smithRef "citep" = "\\citep\x7bsmith2020\x7d"
    ∧ format_multiple_citations [smithRef, ⟨"doe2021", "book", [], none, none⟩] "citep"
        = "\\citep\x7bsmith2020,doe2021\x7d" := by
  refine ⟨by decide, ?_, ?_⟩
  · exact (format_citation_spec.1 smithRef "citep" (by decide)).trans (by decide)
  · exact (format_citation_spec.2.2.1
      [smithRef, ⟨"doe2021", "book", [], none, none⟩] "citep" (by decide)).trans
      (by decide)

/-- CLAIM C9 (amended) — a reference produced by parsing a BibTeX file has
`file_path` set to the path of the parsed file (not absent), and the
attach-file operation overwrites it with the destination path of the copied
document (`{base}/{project}/{standardized filename}`). -/
theorem file_path_provenance :
    (∀ path entries r, r ∈ entriesToReferences path entries → r.file_path = some path)
    ∧ (∀ (baseDir projectName : String) (r : Reference),
        (add_reference_file baseDir projectName r).file_path
          = some (baseDir ++ "/" ++ projectName ++ "/" ++ r.get_standardized_filename)) := by
  constructor
  · intro path entries r hr
    rcases List.mem_map.mp hr with ⟨e, _he, rfl⟩
    rfl
  · intro baseDir projectName r
    rfl

/-- Witness for C9 at a concrete input: the reference parsed from entry
`("k", "article", [])` of file `refs.bib` carries `file_path = refs.bib`. -/
theorem file_path_provenance_witness :
    (⟨"k", "article", [], some "k", some "refs.bib"⟩ : Reference)
        ∈ entriesToReferences "refs.bib" [("k", "article", [])]
    ∧ (⟨"k", "article", [], some "k", some "refs.bib"⟩ : Reference).file_path
        = some "refs.bib" := by
  refine ⟨by decide, ?_⟩
  exact file_path_provenance.1 "refs.bib" [("k", "article", [])] _ (by decide)

/-- CLAIM C9 counterexample — `parse_bibtex_file` does not leave `file_path`
absent: the reference parsed from `refs.bib` has `file_path = some "refs.bib"`,
not `none`. -/
theorem file_path_counterexample :
    ((entriesToReferences "refs.bib" [("k", "article", [])]).getD 0 dref).file_path
      = some "refs.bib"
    ∧ some "refs.bib" ≠ (none : Option String) := by
  refine ⟨by decide, by decide⟩

/-! Round-trip lemmas for the spec-modelled BibTeX text format. -/

theorem takeWhile_append_hit {α : Type} (p : α → Bool) (xs : List α) (y : α) (ys : List α)
    (hxs : ∀ x ∈ xs, p x = true) (hy : p y = false) :
    (xs ++ y :: ys).takeWhile p = xs ∧ (xs ++ y :: ys).dropWhile p = y :: ys := by
  induction xs with
  | nil => simp [List.takeWhile_cons, List.dropWhile_cons, hy]
  | cons x rest ih =>
    have hx : p x = true := hxs x (List.mem_cons_self x rest)
    have ih' := ih (fun a ha => hxs a (List.mem_cons_of_mem x ha))
    simp [List.takeWhile_cons, List.dropWhile_cons, hx, ih'.1, ih'.2]

theorem data_mk_eq (s : String) : String.mk s.data = s := rfl

theorem parseHeaderLine_refHeader (r : Reference)
    (ht : lbrace ∉ r.entry_type.data) (hk : ',' ∉ r.key.data) :
    parseHeaderLine (refHeaderLine r) = some (r.entry_type, r.key) := by
  have htw := takeWhile_append_hit (fun x => !(x == lbrace)) r.entry_type.data lbrace
    (r.key.data ++ [','])
    (fun x hx => by
      simp only [Bool.not_eq_true']
      exact beq_eq_false_iff_ne.mpr (fun hc => ht (hc ▸ hx)))
    (by simp)
  have hkw := takeWhile_append_hit (fun x => !(x == ',')) r.key.data ',' []
    (fun x hx => by
      simp only [Bool.not_eq_true']
      exact beq_eq_false_iff_ne.mpr (fun hc => hk (hc ▸ hx)))
    (by simp)
  have hmem : lbrace ∈ r.entry_type.data ++ lbrace :: (r.key.data ++ [',']) := by
    simp
  have hline : refHeaderLine r
      = '@' :: (r.entry_type.data ++ lbrace :: (r.key.data ++ [','])) := by
    simp [refHeaderLine]
  rw [hline]
  simp only [parseHeaderLine, hmem, eq_self_iff_true, true_and, and_true, if_true]
  rw [htw.1, htw.2]
  simp only [List.drop_succ_cons, List.drop_zero]
  rw [hkw.1, data_mk_eq, data_mk_eq]

theorem parseFieldLine_fieldLine (f : String × String) (hn : ' ' ∉ f.1.data) :
    parseFieldLine (fieldLine f) = some f := by
  have htw := takeWhile_append_hit (fun x => !(x == ' ')) f.1.data ' '
    ('=' :: ' ' :: lbrace :: (f.2.data ++ [rbrace, ',']))
    (fun x hx => by
      simp only [Bool.not_eq_true']
      exact beq_eq_false_iff_ne.mpr (fun hc => hn (hc ▸ hx)))
    (by simp)
  have hpre : ([' ', '=', ' ', lbrace].isPrefixOf
      (' ' :: '=' :: ' ' :: lbrace :: (f.2.data ++ [rbrace, ',']))) = true := by
    simp [List.isPrefixOf]
  have hsuf : ([rbrace, ','].isSuffixOf
      (' ' :: '=' :: ' ' :: lbrace :: (f.2.data ++ [rbrace, ',']))) = true := by
    simp [List.isSuffixOf, List.isPrefixOf]
  have hline : fieldLine f
      = f.1.data ++ ' ' :: ('=' :: ' ' :: lbrace :: (f.2.data ++ [rbrace, ','])) := by
    simp [fieldLine]
  rw [hline]
  simp only [parseFieldLine, htw.1, htw.2, hpre, hsuf, eq_self_iff_true,
    true_and, and_true, and_self, if_true]
  simp only [List.drop_succ_cons, List.drop_zero]
  rw [show f.2.data ++ [rbrace, ','] = (f.2.data ++ [rbrace]) ++ [','] by simp,
    List.dropLast_concat, List.dropLast_concat, data_mk_eq, data_mk_eq]

theorem parseFields_map (fields : List (String × String))
    (h : ∀ f ∈ fields, ' ' ∉ f.1.data) :
    parseFields (fields.map fieldLine) = some fields := by
  induction fields with
  | nil => rfl
  | cons f rest ih =>
    simp only [List.map_cons, parseFields]
    rw [parseFieldLine_fieldLine f (h f (List.mem_cons_self f rest)),
      ih (fun g hg => h g (List.mem_cons_of_mem f hg))]
    rfl

theorem fieldLine_ne_close (f : String × String) : fieldLine f ≠ [rbrace] := by
  intro hc
  have hm : '=' ∈ fieldLine f := by
    simp [fieldLine]
  rw [hc] at hm
  exact absurd (List.mem_singleton.mp hm) (by decide)

theorem splitClose_append (flines rest : List (List Char))
    (h : ∀ l ∈ flines, l ≠ [rbrace]) :
    splitClose (flines ++ [rbrace] :: rest) = some (flines, rest) := by
  induction flines with
  | nil => simp [splitClose]
  | cons l ls ih =>
    simp only [List.cons_append, splitClose, List.append_eq,
      if_neg (h l (List.mem_cons_self l ls))]
    rw [ih (fun x hx => h x (List.mem_cons_of_mem l hx))]
    rfl

theorem refLines_no_newline (r : Reference) (h : wfRef r) :
    ∀ l ∈ refLines r, '\n' ∉ l := by
  obtain ⟨ht1, ht2, hk1, hk2, hf⟩ := h
  intro l hl
  simp only [refLines, List.mem_cons, List.mem_append, List.mem_map,
    List.mem_singleton, List.not_mem_nil, or_false] at hl
  rcases hl with rfl | ⟨f, hfm, rfl⟩ | rfl
  · intro hmem
    rcases List.mem_append.mp hmem with h1 | h1
    · rcases List.mem_append.mp h1 with h2 | h2
      · rcases List.mem_cons.mp h2 with h3 | h3
        · exact absurd h3 (by decide)
        · exact ht2 h3
      · rcases List.mem_cons.mp h2 with h3 | h3
        · exact absurd h3 (by decide)
        · exact hk2 h3
    · exact absurd (List.mem_singleton.mp h1) (by decide)
  · intro hmem
    obtain ⟨hn1, hn2, hv⟩ := hf f hfm
    rcases List.mem_append.mp hmem with h1 | h1
    · rcases List.mem_append.mp h1 with h2 | h2
      · exact hn2 h2
      · simp only [List.mem_cons] at h2
        rcases h2 with h3 | h3 | h3 | h3 | h3
        · exact absurd h3 (by decide)
        · exact absurd h3 (by decide)
        · exact absurd h3 (by decide)
        · exact absurd h3 (by decide)
        · exact hv h3
    · simp only [List.mem_cons, List.not_mem_nil, or_false] at h1
      rcases h1 with h3 | h3 <;> exact absurd h3 (by decide)
  · intro hmem
    exact absurd (List.mem_singleton.mp hmem) (by decide)

theorem allLines_no_newline (refs : List Reference) (h : ∀ r ∈ refs, wfRef r) :
    ∀ l ∈ allLines refs, '\n' ∉ l := by
  induction refs with
  | nil => intro l hl; cases hl
  | cons r rest ih =>
    intro l hl
    rcases List.mem_append.mp hl with h1 | h1
    · exact refLines_no_newline r (h r (List.mem_cons_self r rest)) l h1
    · exact ih (fun x hx => h x (List.mem_cons_of_mem r hx)) l h1

theorem splitNLr_line (l : List Char) (rest : List Char) (h : '\n' ∉ l) :
    splitNLr (l ++ '\n' :: rest) = l :: splitNLr rest := by
  induction l with
  | nil => simp [splitNLr]
  | cons c cs ih =>
    have hc : ¬ (c = '\n') := fun hc => h (hc ▸ List.mem_cons_self c cs)
    have ih' := ih (fun hm => h (List.mem_cons_of_mem c hm))
    simp only [List.cons_append, splitNLr, if_neg hc, List.append_eq]
    rw [ih']
    simp

theorem splitNLr_joinLines (ls : List (List Char)) (h : ∀ l ∈ ls, '\n' ∉ l) :
    splitNLr (joinLines ls) = ls := by
  induction ls with
  | nil => rfl
  | cons l rest ih =>
    simp only [joinLines, splitNLr_line l (joinLines rest) (h l (List.mem_cons_self l rest)),
      ih (fun x hx => h x (List.mem_cons_of_mem l hx))]

theorem parseGo_step (r : Reference) (h : wfRef r) (fuel : Nat)
    (rest : List (List Char)) :
    parseGo (fuel + 1) (refLines r ++ rest)
      = (parseGo fuel rest).map (fun out => tripleOf r :: out) := by
  obtain ⟨ht1, ht2, hk1, hk2, hf⟩ := h
  have hsh : refLines r ++ rest
      = refHeaderLine r :: ((r.fields.map fieldLine) ++ [rbrace] :: rest) := by
    simp [refLines, List.append_assoc]
  rw [hsh]
  have hclose : ∀ l ∈ r.fields.map fieldLine, l ≠ [rbrace] := by
    intro l hl
    rcases List.mem_map.mp hl with ⟨f, _hfm, rfl⟩
    exact fieldLine_ne_close f
  simp only [parseGo]
  rw [parseHeaderLine_refHeader r ht1 hk1, splitClose_append _ _ hclose]
  simp only [Option.some_bind]
  rw [parseFields_map r.fields (fun f hfm => (hf f hfm).1)]
  simp only [Option.some_bind]
  rfl

theorem parseGo_allLines (refs : List Reference) :
    ∀ fuel, refs.length ≤ fuel → (∀ r ∈ refs, wfRef r) →
      parseGo fuel (allLines refs) = some (refs.map tripleOf) := by
  induction refs with
  | nil =>
    intro fuel _ _
    cases fuel <;> rfl
  | cons r rest ih =>
    intro fuel hlen h
    cases fuel with
    | zero => simp at hlen
    | succ fuel =>
      show parseGo (fuel + 1) (refLines r ++ allLines rest) = _
      rw [parseGo_step r (h r (List.mem_cons_self r rest)) fuel (allLines rest),
        ih fuel (by simp only [List.length_cons] at hlen; omega)
          (fun x hx => h x (List.mem_cons_of_mem r hx))]
      rfl

theorem length_le_allLines (refs : List Reference) :
    refs.length ≤ (allLines refs).length := by
  induction refs with
  | nil => simp [allLines]
  | cons r rest ih =>
    show rest.length + 1 ≤ (refLines r ++ allLines rest).length
    simp only [List.length_append, refLines, List.length_cons]
    omega

/-- CLAIM C3 — round-trip law: for every Reference sequence whose strings
respect the standard BibTeX entry grammar (`wfRef`: no `{`/newline in the
entry type, no `,`/newline in the key, no space/newline in field names, no
newline in field values — the spec excludes grammar edge cases), parsing the
serialized text reconstructs exactly the `(key, entry_type, fields)` triples
of the input, in order, with `entry_type` and the field mapping preserved. -/
theorem parse_serialize_roundtrip (refs : List Reference) (h : ∀ r ∈ refs, wfRef r) :
    parseBib (serializeBib refs) = some (refs.map tripleOf) := by
  have hdata : (serializeBib refs).data = joinLines (allLines refs) := rfl
  rw [parseBib, hdata, splitNLr_joinLines (allLines refs) (allLines_no_newline refs h)]
  exact parseGo_allLines refs (allLines refs).length (length_le_allLines refs) h

/-- Demonstration input for C3's witness. -/
def demoC3 : List Reference :=
  [⟨"smith2020", "article", [("author", "Smith, J."), ("year", "2020")], none, none⟩,
   ⟨"doe2021", "book", [("title", "A Book")], none, none⟩]

/-- Witness for C3 at a concrete input: serializing two references and
parsing the text back yields exactly their `(key, entry_type, fields)`
triples. -/
theorem parse_serialize_roundtrip_witness :
    wfRef (demoC3.getD 0 dref) ∧ wfRef (demoC3.getD 1 dref)
    ∧ parseBib (serializeBib demoC3)
        = some [("smith2020", "article", [("author", "Smith, J."), ("year", "2020")]),
                ("doe2021", "book", [("title", "A Book")])] := by
  refine ⟨by decide, by decide, ?_⟩
  exact (parse_serialize_roundtrip demoC3 (by decide)).trans (by decide)

end RefMan
